import Mathlib

/-!
Verification of the S&P 500 index-reconstruction engine.

The engine takes (a) membership intervals for index constituents,
(b) a monthly panel of per-security price / shares-outstanding / return
observations, and (c) the official index series, and computes two
approximations of the index: Method A (sum of adjusted market caps,
level by market-cap ratios) and Method B (a quarterly-rebalanced,
weight-frozen portfolio compounding ex-dividend returns).

Numbers are modelled by ℚ, dates and security identifiers by ℕ.
-/

namespace SP500

/-- One row of the constituents table: a membership interval of security
`permno` in the index, with inclusive start and end dates. -/
structure MembershipInterval where
  permno : ℕ
  mbrstartdt : ℕ
  mbrenddt : ℕ
deriving DecidableEq

/-- One row of the monthly stock file: per-security observation at a date.
`prc` is signed (negative encodes a quote-midpoint value), `shrout` is the
share count, `cfacpr`/`cfacshr` are the cumulative price and share
adjustment factors, `ret` the total return and `retx` the ex-dividend
return. -/
structure PanelRow where
  permno : ℕ
  date : ℕ
  prc : ℚ
  shrout : ℕ
  cfacpr : ℚ
  cfacshr : ℚ
  ret : ℚ
  retx : ℚ
deriving DecidableEq

/-- Adjusted price: absolute value of the signed price divided by the
cumulative price adjustment factor. -/
def adj_prc (r : PanelRow) : ℚ := |r.prc| / r.cfacpr

/-- Adjusted shares outstanding: shares times the cumulative share
adjustment factor. -/
def adj_shrout (r : PanelRow) : ℚ := (r.shrout : ℚ) * r.cfacshr

/-- Market capitalization of one observation. -/
def market_cap (r : PanelRow) : ℚ := adj_prc r * adj_shrout r

/-- Securities that are index members on date `d`: those having some
membership interval with `mbrstartdt ≤ d ≤ mbrenddt`, collected as a
set (a security with several qualifying intervals appears once). -/
def activeMembers (c : List MembershipInterval) (d : ℕ) : Finset ℕ :=
  ((c.filter fun r => decide (r.mbrstartdt ≤ d) && decide (d ≤ r.mbrenddt)).map
    MembershipInterval.permno).toFinset

/-- Keyed lookup of the panel observation of security `i` at date `d`. -/
def findObs (p : List PanelRow) (i d : ℕ) : Option PanelRow :=
  p.find? fun r => r.permno == i && r.date == d

/-- Market cap of security `i` at date `d`, zero when the observation is
missing. -/
def mcOrZero (p : List PanelRow) (i d : ℕ) : ℚ :=
  (findObs p i d).elim 0 market_cap

/-- Ex-dividend return of security `i` at date `d`, zero when the
observation is missing. -/
def retxOrZero (p : List PanelRow) (i d : ℕ) : ℚ :=
  (findObs p i d).elim 0 PanelRow.retx

/-- Total market capitalization of the index at date `d`: sum of market
caps of the active members; members with a missing observation contribute
nothing. -/
def totalMarketCap (c : List MembershipInterval) (p : List PanelRow) (d : ℕ) : ℚ :=
  ∑ i ∈ activeMembers c d, mcOrZero p i d

/-- Modelled from the spec: Method A level series produced by
`calc_SP500_index.append_actual_sp500_index_and_approx_returns_A` (the
module itself being absent from the sources). Anchored at the official
level `anchor` at date `t0` and compounded by the ratios of consecutive
total market caps; `k` counts steps after the anchor. -/
def level_approx_A (c : List MembershipInterval) (p : List PanelRow)
    (t0 : ℕ) (anchor : ℚ) (k : ℕ) : ℚ :=
  anchor * ∏ j ∈ Finset.range k,
    (totalMarketCap c p (t0 + j + 1) / totalMarketCap c p (t0 + j))

/-- Modelled from the spec: the Method A period return, the ratio of
consecutive approximated levels minus one. -/
def ret_approx_A (c : List MembershipInterval) (p : List PanelRow)
    (t0 : ℕ) (anchor : ℚ) (k : ℕ) : ℚ :=
  level_approx_A c p t0 anchor (k + 1) / level_approx_A c p t0 anchor k - 1

/-- Whether the Method A approximation has any data at date `t`: some
active member has a panel observation on `t`. -/
def hasApproxData (c : List MembershipInterval) (p : List PanelRow) (t : ℕ) : Bool :=
  decide (∃ i ∈ activeMembers c t, (findObs p i t).isSome = true)

/-- Both the official series and the approximation are defined at `t`. -/
def commonDefined (official : ℕ → Option ℚ) (c : List MembershipInterval)
    (p : List PanelRow) (t : ℕ) : Prop :=
  (official t).isSome = true ∧ hasApproxData c p t = true

instance (official : ℕ → Option ℚ) (c : List MembershipInterval)
    (p : List PanelRow) (t : ℕ) : Decidable (commonDefined official c p t) :=
  inferInstanceAs (Decidable (_ ∧ _))

/-- Modelled from the spec: fail-closed Method A level computation.
Computes the level list for `t0, t0+1, ..., t0+K`; when a zero total
market cap is hit at a denominator date the whole computation aborts
with an error carrying the triggering date, instead of emitting a
truncated series or NaN/inf. -/
def levelsAE (c : List MembershipInterval) (p : List PanelRow)
    (t0 : ℕ) (anchor : ℚ) : ℕ → Except ℕ (List ℚ)
  | 0 => Except.ok [anchor]
  | K + 1 =>
    match levelsAE c p t0 anchor K with
    | Except.error d => Except.error d
    | Except.ok ls =>
      if totalMarketCap c p (t0 + K) = 0 then Except.error (t0 + K)
      else
        Except.ok (ls ++ [ls.getLastD anchor *
          (totalMarketCap c p (t0 + K + 1) / totalMarketCap c p (t0 + K))])

/-- The portfolio weight state of the Method B simulation: the set of
securities currently held and the weight mapping. -/
@[ext]
structure PortfolioState where
  support : Finset ℕ
  w : ℕ → ℚ

/-- Weight state produced by the rebalance computation at date `t`:
every active member with a defined market cap gets weight
`market_cap / totalMarketCap`, every other security weight 0. -/
def rebalState (c : List MembershipInterval) (p : List PanelRow) (t : ℕ) : PortfolioState :=
  ⟨activeMembers c t,
   fun i => if i ∈ activeMembers c t then mcOrZero p i t / totalMarketCap c p t else 0⟩

/-- The empty portfolio before the first rebalance. -/
def initState : PortfolioState := ⟨∅, fun _ => 0⟩

/-- Modelled from the spec: the weight state of the Method B simulation
(the simulator `calc_SP500_index.calculate_sp500_returns_with_rebalancing`
being absent from the sources). Dates are processed in increasing order;
`reb` says which dates are quarterly rebalance dates. At a rebalance date
the weights are reset to index weights; at any other date the whole
mapping is carried over frozen. -/
def stateB (c : List MembershipInterval) (p : List PanelRow)
    (reb : ℕ → Bool) : ℕ → PortfolioState
  | 0 => if reb 0 then rebalState c p 0 else initState
  | t + 1 => if reb (t + 1) then rebalState c p (t + 1) else stateB c p reb t

/-- Modelled from the spec: Method B period return. The return realized
over period `t+1` is the weight state held at `t` applied to the
ex-dividend returns at `t+1`; a held security with a missing return
observation contributes zero. -/
def ret_approx_B (c : List MembershipInterval) (p : List PanelRow)
    (reb : ℕ → Bool) : ℕ → ℚ
  | 0 => 0
  | t + 1 => ∑ i ∈ (stateB c p reb t).support,
      (stateB c p reb t).w i * retxOrZero p i (t + 1)

/-- Modelled from the spec: fail-closed rebalance. A rebalance date with
zero total market cap across all active members is a fatal fault reported
with the triggering date. -/
def rebalE (c : List MembershipInterval) (p : List PanelRow) (t : ℕ) :
    Except ℕ PortfolioState :=
  if totalMarketCap c p t = 0 then Except.error t else Except.ok (rebalState c p t)

/-- Modelled from the spec: fail-closed Method B simulation state. An
error raised at a rebalance date propagates; no partial state is kept. -/
def stateBE (c : List MembershipInterval) (p : List PanelRow)
    (reb : ℕ → Bool) : ℕ → Except ℕ PortfolioState
  | 0 => if reb 0 then rebalE c p 0 else Except.ok initState
  | t + 1 =>
    match stateBE c p reb t with
    | Except.error d => Except.error d
    | Except.ok st => if reb (t + 1) then rebalE c p (t + 1) else Except.ok st

/-- One row of the official monthly index file used in the comparison:
date, index level, index return. -/
structure OffRow where
  date : ℕ
  spindx : ℚ
  sprtrn : ℚ
deriving DecidableEq

/-- One row of the Method B approximation series handed to the
comparison merge. -/
structure BRow where
  date : ℕ
  retB : ℚ
deriving DecidableEq

/-- Inner join of the official index table with the Method B series on
`date`, keeping the date order of the official table: a date absent from
either side is dropped. -/
def innerJoinB (msix : List OffRow) (appr : List BRow) : List (OffRow × BRow) :=
  msix.filterMap fun m => (appr.find? fun b => b.date == m.date).map fun b => (m, b)

/-- Running (cumulative) product of a list, as `pandas.cumprod`:
entry `k` of the result is the product of entries `0..k` of the input. -/
def cumprodQ : List ℚ → List ℚ
  | [] => []
  | x :: xs => x :: (cumprodQ xs).map fun y => x * y

/-- The cumulative-return column of the Method B comparison table:
cumulative product of one plus the joined period returns. -/
def cumret_approx_B (msix : List OffRow) (appr : List BRow) : List ℚ :=
  cumprodQ ((innerJoinB msix appr).map fun q => 1 + q.2.retB)

/-- A security whose `ret` field differs from `r` but whose other fields
agree: used to express that a computation never reads the total-return
field. -/
def clearRet (r : PanelRow) : PanelRow :=
  ⟨r.permno, r.date, r.prc, r.shrout, r.cfacpr, r.cfacshr, 0, r.retx⟩

/-- Example membership table: securities 1 and 2 are members over dates
0 through 10. -/
def cEx : List MembershipInterval := [⟨1, 0, 10⟩, ⟨2, 0, 10⟩]

/-- Example panel, the two-period scenario of the spec: security 1 moves
10 → 11 (`retx` 1/10), security 2 moves 20 → 18 (`retx` -1/10). -/
def pEx : List PanelRow :=
  [⟨1, 0, 10, 100, 1, 1, 0, 0⟩,
   ⟨1, 1, 11, 100, 1, 1, 1/10, 1/10⟩,
   ⟨2, 0, 20, 50, 1, 1, 0, 0⟩,
   ⟨2, 1, 18, 50, 1, 1, -1/10, -1/10⟩]

/-- The example panel with different total-return (`ret`) entries but
identical data otherwise. -/
def pExRet : List PanelRow :=
  [⟨1, 0, 10, 100, 1, 1, 99, 0⟩,
   ⟨1, 1, 11, 100, 1, 1, 99, 1/10⟩,
   ⟨2, 0, 20, 50, 1, 1, 99, 0⟩,
   ⟨2, 1, 18, 50, 1, 1, 99, -1/10⟩]

/-- Example membership table with a third member, security 3, that has
no panel observations at all. -/
def cEx3 : List MembershipInterval := [⟨1, 0, 10⟩, ⟨2, 0, 10⟩, ⟨3, 0, 10⟩]

/-- Example official index table for the comparison merge. -/
def msixEx : List OffRow := [⟨1, 100, 1/20⟩, ⟨2, 110, 1/10⟩]

/-- Example Method B series for the comparison merge: date 1 only. -/
def apprEx : List BRow := [⟨1, 1/10⟩]

lemma mem_activeMembers {c : List MembershipInterval} {d i : ℕ} :
    i ∈ activeMembers c d ↔
      ∃ r ∈ c, r.permno = i ∧ r.mbrstartdt ≤ d ∧ d ≤ r.mbrenddt := by
  simp only [activeMembers, List.mem_toFinset, List.mem_map, List.mem_filter,
    Bool.and_eq_true, decide_eq_true_eq]
  tauto

/-- C6: `activeMembers d` is exactly the set of security ids having some
membership interval whose inclusive start and end dates bracket `d`;
as a `Finset` a security with several qualifying intervals appears once,
and a date covered by no interval yields the empty set. -/
theorem activeMembers_spec (c : List MembershipInterval) (d i : ℕ) :
    (i ∈ activeMembers c d ↔
      ∃ r ∈ c, r.permno = i ∧ r.mbrstartdt ≤ d ∧ d ≤ r.mbrenddt) ∧
    ((∀ r ∈ c, ¬(r.mbrstartdt ≤ d ∧ d ≤ r.mbrenddt)) → activeMembers c d = ∅) := by
  refine ⟨mem_activeMembers, fun h => ?_⟩
  apply Finset.eq_empty_of_forall_not_mem
  intro x hx
  obtain ⟨r, hrc, -, hr⟩ := mem_activeMembers.mp hx
  exact h r hrc hr

/-- C6 witness: on date 0 of the example data, security 1 is active via
the interval `⟨1, 0, 10⟩`, and a table whose single interval misses the
query date yields the empty set. -/
theorem activeMembers_spec_witness :
    (1 ∈ activeMembers cEx 0 ↔
      ∃ r ∈ cEx, r.permno = 1 ∧ r.mbrstartdt ≤ 0 ∧ 0 ≤ r.mbrenddt) ∧
    ((∀ r ∈ [(⟨1, 5, 10⟩ : MembershipInterval)], ¬(r.mbrstartdt ≤ 0 ∧ 0 ≤ r.mbrenddt)) →
      activeMembers [(⟨1, 5, 10⟩ : MembershipInterval)] 0 = ∅) ∧
    activeMembers [(⟨1, 5, 10⟩ : MembershipInterval)] 0 = ∅ :=
  ⟨(activeMembers_spec cEx 0 1).1,
   (activeMembers_spec [⟨1, 5, 10⟩] 0 1).2,
   (activeMembers_spec [⟨1, 5, 10⟩] 0 1).2 (by decide)⟩

/-- C7: for an observation with strictly positive adjustment factors,
the adjusted price is the absolute price over the price factor, the
adjusted shares are shares times the share factor, market cap is their
product, and market cap is non-negative. -/
theorem market_cap_spec (r : PanelRow) (hp : 0 < r.cfacpr) (hs : 0 < r.cfacshr) :
    adj_prc r = |r.prc| / r.cfacpr ∧
    adj_shrout r = (r.shrout : ℚ) * r.cfacshr ∧
    market_cap r = adj_prc r * adj_shrout r ∧
    0 ≤ market_cap r := by
  refine ⟨rfl, rfl, rfl, ?_⟩
  exact mul_nonneg (div_nonneg (abs_nonneg _) hp.le)
    (mul_nonneg (Nat.cast_nonneg _) hs.le)

/-- C7 witness: a negative stored price with adjustment factor 2
contributes its absolute value, and the market cap is non-negative. -/
theorem market_cap_spec_witness :
    0 < (⟨1, 0, -10, 100, 2, 4, 0, 0⟩ : PanelRow).cfacpr ∧
    0 < (⟨1, 0, -10, 100, 2, 4, 0, 0⟩ : PanelRow).cfacshr ∧
    adj_prc ⟨1, 0, -10, 100, 2, 4, 0, 0⟩ = 5 ∧
    0 ≤ market_cap ⟨1, 0, -10, 100, 2, 4, 0, 0⟩ :=
  ⟨by norm_num, by norm_num, by norm_num [adj_prc],
   (market_cap_spec ⟨1, 0, -10, 100, 2, 4, 0, 0⟩ (by norm_num) (by norm_num)).2.2.2⟩

lemma stateB_succ_not_rebal {c : List MembershipInterval} {p : List PanelRow}
    {reb : ℕ → Bool} {t : ℕ} (h : reb (t + 1) = false) :
    stateB c p reb (t + 1) = stateB c p reb t := by
  simp [stateB, h]

/-- C2: at a non-rebalance date the entire Method B weight state —
support and weight mapping alike — is carried over unchanged from the
prior period. -/
theorem weights_frozen_between_rebalances (c : List MembershipInterval)
    (p : List PanelRow) (reb : ℕ → Bool) (t : ℕ) (h : reb (t + 1) = false) :
    stateB c p reb (t + 1) = stateB c p reb t ∧
    ∀ i, (stateB c p reb (t + 1)).w i = (stateB c p reb t).w i := by
  have he := stateB_succ_not_rebal (c := c) (p := p) h
  exact ⟨he, fun i => by rw [he]⟩

/-- C2 witness: with rebalancing only at date 0, the state at date 1
equals the state at date 0 on the example data. -/
theorem weights_frozen_between_rebalances_witness :
    (fun t => t == 0) 1 = false ∧
    stateB cEx pEx (fun t => t == 0) 1 = stateB cEx pEx (fun t => t == 0) 0 :=
  ⟨rfl, (weights_frozen_between_rebalances cEx pEx (fun t => t == 0) 0 rfl).1⟩

/-- C3: at a rebalance date where every active member has a defined
observation and the total market cap is nonzero, the rebalance
computation assigns weight `market_cap / totalMarketCap` to every active
member, weight 0 to every other security, and the weights sum to exactly
one. -/
theorem rebalance_weights_sum_one (c : List MembershipInterval)
    (p : List PanelRow) (t : ℕ)
    (_hobs : ∀ i ∈ activeMembers c t, (findObs p i t).isSome = true)
    (htot : totalMarketCap c p t ≠ 0) :
    (∀ i ∈ activeMembers c t,
      (rebalState c p t).w i = mcOrZero p i t / totalMarketCap c p t) ∧
    (∀ j, j ∉ activeMembers c t → (rebalState c p t).w j = 0) ∧
    ∑ i ∈ activeMembers c t, (rebalState c p t).w i = 1 := by
  refine ⟨fun i hi => by simp [rebalState, hi], fun j hj => by simp [rebalState, hj], ?_⟩
  have hsum : ∑ i ∈ activeMembers c t, (rebalState c p t).w i
      = ∑ i ∈ activeMembers c t, mcOrZero p i t / totalMarketCap c p t :=
    Finset.sum_congr rfl fun i hi => by simp [rebalState, hi]
  rw [hsum, ← Finset.sum_div]
  exact div_self htot

/-- C3 witness: on the example data at the rebalance date 0 the two
active members have observations, the total market cap is 2000, and the
assigned weights (one half each) sum to one. -/
theorem rebalance_weights_sum_one_witness :
    (∀ i ∈ activeMembers cEx 0, (findObs pEx i 0).isSome = true) ∧
    totalMarketCap cEx pEx 0 ≠ 0 ∧
    ∑ i ∈ activeMembers cEx 0, (rebalState cEx pEx 0).w i = 1 :=
  ⟨by decide,
   by
    simp [totalMarketCap, cEx, pEx, activeMembers, mcOrZero, findObs,
      market_cap, adj_prc, adj_shrout, List.find?]
    norm_num,
   (rebalance_weights_sum_one cEx pEx 0 (by decide)
     (by
       simp [totalMarketCap, cEx, pEx, activeMembers, mcOrZero, findObs,
         market_cap, adj_prc, adj_shrout, List.find?]
       norm_num)).2.2⟩

lemma findObs_map_clearRet (p : List PanelRow) (i d : ℕ) :
    findObs (p.map clearRet) i d = (findObs p i d).map clearRet := by
  unfold findObs
  rw [List.find?_map]
  rfl

lemma mcOrZero_clearRet (p : List PanelRow) (i d : ℕ) :
    mcOrZero (p.map clearRet) i d = mcOrZero p i d := by
  unfold mcOrZero
  rw [findObs_map_clearRet]
  cases findObs p i d <;> rfl

lemma retxOrZero_clearRet (p : List PanelRow) (i d : ℕ) :
    retxOrZero (p.map clearRet) i d = retxOrZero p i d := by
  unfold retxOrZero
  rw [findObs_map_clearRet]
  cases findObs p i d <;> rfl

lemma totalMarketCap_clearRet (c : List MembershipInterval) (p : List PanelRow) (d : ℕ) :
    totalMarketCap c (p.map clearRet) d = totalMarketCap c p d := by
  unfold totalMarketCap
  exact Finset.sum_congr rfl fun i _ => mcOrZero_clearRet p i d

lemma rebalState_clearRet (c : List MembershipInterval) (p : List PanelRow) (t : ℕ) :
    rebalState c (p.map clearRet) t = rebalState c p t := by
  unfold rebalState
  congr 1
  funext i
  rw [mcOrZero_clearRet, totalMarketCap_clearRet]

lemma stateB_clearRet (c : List MembershipInterval) (p : List PanelRow)
    (reb : ℕ → Bool) (t : ℕ) :
    stateB c (p.map clearRet) reb t = stateB c p reb t := by
  induction t with
  | zero => simp [stateB, rebalState_clearRet]
  | succ t ih => simp [stateB, rebalState_clearRet, ih]

lemma retB_clearRet (c : List MembershipInterval) (p : List PanelRow)
    (reb : ℕ → Bool) (t : ℕ) :
    ret_approx_B c (p.map clearRet) reb t = ret_approx_B c p reb t := by
  cases t with
  | zero => rfl
  | succ t =>
    show (∑ i ∈ (stateB c (p.map clearRet) reb t).support,
        (stateB c (p.map clearRet) reb t).w i * retxOrZero (p.map clearRet) i (t + 1))
      = ∑ i ∈ (stateB c p reb t).support,
          (stateB c p reb t).w i * retxOrZero p i (t + 1)
    rw [stateB_clearRet]
    exact Finset.sum_congr rfl fun i _ => by rw [retxOrZero_clearRet]

/-- C1: the Method B period return over `t+1` is the weight state at `t`
applied to the ex-dividend (`retx`) returns at `t+1`; and the result
never depends on the total-return (`ret`) field — any two panels that
agree on everything except `ret` produce the same period return. -/
theorem methodB_return_uses_retx (c : List MembershipInterval)
    (p q : List PanelRow) (reb : ℕ → Bool) (t : ℕ)
    (h : q.map clearRet = p.map clearRet) :
    ret_approx_B c p reb (t + 1)
      = ∑ i ∈ (stateB c p reb t).support,
          (stateB c p reb t).w i * retxOrZero p i (t + 1) ∧
    ret_approx_B c q reb (t + 1) = ret_approx_B c p reb (t + 1) := by
  refine ⟨rfl, ?_⟩
  calc ret_approx_B c q reb (t + 1)
      = ret_approx_B c (q.map clearRet) reb (t + 1) := (retB_clearRet c q reb (t + 1)).symm
    _ = ret_approx_B c (p.map clearRet) reb (t + 1) := by rw [h]
    _ = ret_approx_B c p reb (t + 1) := retB_clearRet c p reb (t + 1)

/-- C1 witness: replacing every total-return entry of the example panel
by 99 leaves the Method B period return unchanged. -/
theorem methodB_return_uses_retx_witness :
    pExRet.map clearRet = pEx.map clearRet ∧
    ret_approx_B cEx pExRet (fun t => t == 0) 1
      = ret_approx_B cEx pEx (fun t => t == 0) 1 :=
  ⟨by simp [pExRet, pEx, clearRet],
   (methodB_return_uses_retx cEx pEx pExRet (fun t => t == 0) 0
     (by simp [pExRet, pEx, clearRet])).2⟩

/-- C8: a security `s` active at `t+1` with no panel observation there is
silently excluded from Method A's total market cap (the total equals the
sum over active members that do have observations), while Method B keeps
its weight: its return observation is treated as zero, its term drops
from the period-return sum without removing its capital, and at a
non-rebalance date the weight state is carried over intact. -/
theorem missing_observation_policy (c : List MembershipInterval)
    (p : List PanelRow) (reb : ℕ → Bool) (s t : ℕ)
    (_hact : s ∈ activeMembers c (t + 1))
    (hmiss : findObs p s (t + 1) = none) :
    totalMarketCap c p (t + 1)
      = ∑ i ∈ (activeMembers c (t + 1)).filter
          (fun i => (findObs p i (t + 1)).isSome = true), mcOrZero p i (t + 1) ∧
    retxOrZero p s (t + 1) = 0 ∧
    ret_approx_B c p reb (t + 1)
      = ∑ i ∈ ((stateB c p reb t).support).erase s,
          (stateB c p reb t).w i * retxOrZero p i (t + 1) ∧
    (reb (t + 1) = false → stateB c p reb (t + 1) = stateB c p reb t) := by
  have hretx : retxOrZero p s (t + 1) = 0 := by
    unfold retxOrZero
    rw [hmiss]
    rfl
  refine ⟨?_, hretx, ?_, fun h => stateB_succ_not_rebal h⟩
  · symm
    apply Finset.sum_subset (Finset.filter_subset _ _)
    intro x hx hnx
    have hnone : findObs p x (t + 1) = none := by
      rcases hfo : findObs p x (t + 1) with _ | r
      · rfl
      · exact absurd (Finset.mem_filter.mpr ⟨hx, by rw [hfo]; rfl⟩) hnx
    unfold mcOrZero
    rw [hnone]
    rfl
  · have hterm : (stateB c p reb t).w s * retxOrZero p s (t + 1) = 0 := by
      rw [hretx, mul_zero]
    show (∑ i ∈ (stateB c p reb t).support,
        (stateB c p reb t).w i * retxOrZero p i (t + 1))
      = ∑ i ∈ ((stateB c p reb t).support).erase s,
          (stateB c p reb t).w i * retxOrZero p i (t + 1)
    exact (@Finset.sum_erase ℕ ℚ _ _ ((stateB c p reb t).support)
      (fun i => (stateB c p reb t).w i * retxOrZero p i (t + 1)) s hterm).symm

/-- C8 witness: security 3 is active on date 1 of the extended example
table but has no panel observation there; Method A's total market cap on
date 1 equals the sum over the members with observations and Method B's
period return drops security 3's term while it stays in the weight
state. -/
theorem missing_observation_policy_witness :
    3 ∈ activeMembers cEx3 1 ∧
    findObs pEx 3 1 = none ∧
    ret_approx_B cEx3 pEx (fun t => t == 0) 1
      = ∑ i ∈ ((stateB cEx3 pEx (fun t => t == 0) 0).support).erase 3,
          (stateB cEx3 pEx (fun t => t == 0) 0).w i * retxOrZero pEx i 1 :=
  ⟨by decide, by decide,
   (missing_observation_policy cEx3 pEx (fun t => t == 0) 3 0
     (by decide) (by decide)).2.2.1⟩

/-- C4: the Method A level series anchored at the first period `t0`
where both the official series and the approximation are defined starts
at the official level, moves by the ratio of consecutive total market
caps, and its period return is the ratio of consecutive levels minus
one. -/
theorem methodA_level_recurrence (c : List MembershipInterval) (p : List PanelRow)
    (official : ℕ → Option ℚ) (t0 : ℕ) (anchor : ℚ)
    (_h0 : commonDefined official c p t0)
    (_hmin : ∀ t < t0, ¬ commonDefined official c p t)
    (hanchor : official t0 = some anchor) :
    level_approx_A c p t0 anchor 0 = (official t0).getD 0 ∧
    (∀ k, totalMarketCap c p (t0 + k) ≠ 0 →
      level_approx_A c p t0 anchor (k + 1)
        = level_approx_A c p t0 anchor k
            * totalMarketCap c p (t0 + k + 1) / totalMarketCap c p (t0 + k)) ∧
    (∀ k, ret_approx_A c p t0 anchor k
        = level_approx_A c p t0 anchor (k + 1) / level_approx_A c p t0 anchor k - 1) := by
  refine ⟨?_, ?_, fun k => rfl⟩
  · rw [hanchor]
    simp [level_approx_A]
  · intro k _
    unfold level_approx_A
    rw [Finset.prod_range_succ]
    ring

/-- C4 witness: with the official series constantly 100 the first common
period of the example data is 0, and the anchored level starts at 100. -/
theorem methodA_level_recurrence_witness :
    commonDefined (fun _ => some (100 : ℚ)) cEx pEx 0 ∧
    level_approx_A cEx pEx 0 100 0 = ((fun _ => some (100 : ℚ)) 0).getD 0 :=
  ⟨⟨rfl, by decide⟩,
   (methodA_level_recurrence cEx pEx (fun _ => some 100) 0 100 ⟨rfl, by decide⟩
     (fun t ht => absurd ht (Nat.not_lt_zero t)) rfl).1⟩

lemma cumprodQ_length (xs : List ℚ) : (cumprodQ xs).length = xs.length := by
  induction xs with
  | nil => rfl
  | cons x xs ih => simp [cumprodQ, ih]

lemma cumprodQ_get (xs : List ℚ) (k : ℕ) (h : k < (cumprodQ xs).length) :
    (cumprodQ xs).get ⟨k, h⟩ = (xs.take (k + 1)).prod := by
  induction xs generalizing k with
  | nil => simp [cumprodQ] at h
  | cons x xs ih =>
    cases k with
    | zero => simp [cumprodQ]
    | succ k =>
      have hk : k < (cumprodQ xs).length := by
        have hl := h
        simp [cumprodQ] at hl
        omega
      have hih := ih k hk
      simp only [cumprodQ, List.get_eq_getElem, List.getElem_cons_succ,
        List.getElem_map, List.take_succ_cons, List.prod_cons]
      simp only [List.get_eq_getElem] at hih
      rw [hih]

/-- C10: the cumulative-return column of the Method B comparison table
is the running product of one plus the period returns of the
inner-joined sample, so every entry is the product over the prefix
ending there; in particular the entry at the first joined date is one
plus that date's return and differs from one whenever that return is
nonzero. -/
theorem cumret_approx_B_running_product (msix : List OffRow) (appr : List BRow) :
    (∀ k (h : k < (cumret_approx_B msix appr).length),
      (cumret_approx_B msix appr).get ⟨k, h⟩
        = (((innerJoinB msix appr).map fun q => 1 + q.2.retB).take (k + 1)).prod) ∧
    (∀ m b rest, innerJoinB msix appr = (m, b) :: rest →
      (cumret_approx_B msix appr).head? = some (1 + b.retB)) ∧
    (∀ m b rest, innerJoinB msix appr = (m, b) :: rest → b.retB ≠ 0 →
      (cumret_approx_B msix appr).head? ≠ some 1) := by
  refine ⟨fun k h => cumprodQ_get _ k h, ?_, ?_⟩
  · intro m b rest hj
    unfold cumret_approx_B
    rw [hj]
    rfl
  · intro m b rest hj hb
    unfold cumret_approx_B
    rw [hj]
    simp only [List.map_cons, cumprodQ, List.head?_cons, ne_eq, Option.some.injEq]
    intro hcontra
    exact hb (by linarith)

/-- C10 witness: on the example tables the inner join keeps only date 1,
and the first cumulative-return entry is 1 + 1/10, not 1. -/
theorem cumret_approx_B_running_product_witness :
    innerJoinB msixEx apprEx = [(⟨1, 100, 1/20⟩, ⟨1, 1/10⟩)] ∧
    (cumret_approx_B msixEx apprEx).head? = some (1 + (1 : ℚ)/10) :=
  ⟨by rfl,
   (cumret_approx_B_running_product msixEx apprEx).2.1 ⟨1, 100, 1/20⟩ ⟨1, 1/10⟩ []
     (by rfl)⟩

lemma levelsAE_error_spec (c : List MembershipInterval) (p : List PanelRow)
    (t0 : ℕ) (anchor : ℚ) :
    ∀ K d, levelsAE c p t0 anchor K = Except.error d → totalMarketCap c p d = 0 := by
  intro K
  induction K with
  | zero => intro d h; simp [levelsAE] at h
  | succ K ih =>
    intro d h
    unfold levelsAE at h
    cases hK : levelsAE c p t0 anchor K with
    | error e =>
      rw [hK] at h
      simp only [Except.error.injEq] at h
      exact h ▸ ih e hK
    | ok ls =>
      rw [hK] at h
      dsimp only at h
      by_cases hz : totalMarketCap c p (t0 + K) = 0
      · rw [if_pos hz] at h
        simp only [Except.error.injEq] at h
        exact h ▸ hz
      · rw [if_neg hz] at h
        exact absurd h (by simp)

lemma levelsAE_ok_spec (c : List MembershipInterval) (p : List PanelRow)
    (t0 : ℕ) (anchor : ℚ) :
    ∀ K ls, levelsAE c p t0 anchor K = Except.ok ls →
      ls.length = K + 1 ∧ ∀ k < K, totalMarketCap c p (t0 + k) ≠ 0 := by
  intro K
  induction K with
  | zero =>
    intro ls h
    simp only [levelsAE, Except.ok.injEq] at h
    refine ⟨by rw [← h]; rfl, fun k hk => absurd hk (Nat.not_lt_zero k)⟩
  | succ K ih =>
    intro ls h
    unfold levelsAE at h
    cases hK : levelsAE c p t0 anchor K with
    | error e =>
      rw [hK] at h
      exact absurd h (by simp)
    | ok ls' =>
      rw [hK] at h
      dsimp only at h
      by_cases hz : totalMarketCap c p (t0 + K) = 0
      · rw [if_pos hz] at h
        exact absurd h (by simp)
      · rw [if_neg hz] at h
        simp only [Except.ok.injEq] at h
        obtain ⟨hlen, hnz⟩ := ih ls' hK
        constructor
        · rw [← h, List.length_append, hlen]
          rfl
        · intro k hk
          rcases Nat.lt_succ_iff_lt_or_eq.mp hk with hlt | heq
          · exact hnz k hlt
          · exact heq ▸ hz

lemma stateBE_error_spec (c : List MembershipInterval) (p : List PanelRow)
    (reb : ℕ → Bool) :
    ∀ T d, stateBE c p reb T = Except.error d →
      reb d = true ∧ totalMarketCap c p d = 0 := by
  intro T
  induction T with
  | zero =>
    intro d h
    unfold stateBE at h
    by_cases hr : reb 0 = true
    · rw [if_pos hr] at h
      unfold rebalE at h
      by_cases hz : totalMarketCap c p 0 = 0
      · rw [if_pos hz] at h
        simp only [Except.error.injEq] at h
        exact h ▸ ⟨hr, hz⟩
      · rw [if_neg hz] at h
        exact absurd h (by simp)
    · rw [if_neg hr] at h
      exact absurd h (by simp)
  | succ T ih =>
    intro d h
    unfold stateBE at h
    cases hT : stateBE c p reb T with
    | error e =>
      rw [hT] at h
      simp only [Except.error.injEq] at h
      exact h ▸ ih e hT
    | ok st =>
      rw [hT] at h
      dsimp only at h
      by_cases hr : reb (T + 1) = true
      · rw [if_pos hr] at h
        unfold rebalE at h
        by_cases hz : totalMarketCap c p (T + 1) = 0
        · rw [if_pos hz] at h
          simp only [Except.error.injEq] at h
          exact h ▸ ⟨hr, hz⟩
        · rw [if_neg hz] at h
          exact absurd h (by simp)
      · rw [if_neg hr] at h
        exact absurd h (by simp)

lemma stateBE_ok_spec (c : List MembershipInterval) (p : List PanelRow)
    (reb : ℕ → Bool) :
    ∀ T st, stateBE c p reb T = Except.ok st →
      ∀ u ≤ T, reb u = true → totalMarketCap c p u ≠ 0 := by
  intro T
  induction T with
  | zero =>
    intro st h u hu hr
    have hu0 : u = 0 := Nat.le_zero.mp hu
    subst hu0
    unfold stateBE at h
    rw [if_pos hr] at h
    unfold rebalE at h
    by_cases hz : totalMarketCap c p 0 = 0
    · rw [if_pos hz] at h
      exact absurd h (by simp)
    · exact hz
  | succ T ih =>
    intro st h u hu hr
    unfold stateBE at h
    cases hT : stateBE c p reb T with
    | error e =>
      rw [hT] at h
      exact absurd h (by simp)
    | ok st' =>
      rw [hT] at h
      dsimp only at h
      rcases Nat.le_succ_iff_eq_or_le.mp hu with heq | hle
      · subst heq
        rw [if_pos hr] at h
        unfold rebalE at h
        by_cases hz : totalMarketCap c p (T + 1) = 0
        · rw [if_pos hz] at h
          exact absurd h (by simp)
        · exact hz
      · exact ih st' hT u hle hr

/-- C5: whenever a zero total market cap is hit at a denominator date —
in the Method A level recurrence, or at a Method B rebalance date — the
series computation returns an explicit error carrying a triggering date
at which the total market cap is indeed zero (and, for Method B, which
is a rebalance date); a successful result is never partial: it has the
full length and certifies every denominator was nonzero. -/
theorem zero_total_market_cap_fails_closed (c : List MembershipInterval)
    (p : List PanelRow) (t0 : ℕ) (anchor : ℚ) (reb : ℕ → Bool) :
    (∀ K, (∃ k, k < K ∧ totalMarketCap c p (t0 + k) = 0) →
      ∃ d, levelsAE c p t0 anchor K = Except.error d ∧ totalMarketCap c p d = 0) ∧
    (∀ K ls, levelsAE c p t0 anchor K = Except.ok ls →
      ls.length = K + 1 ∧ ∀ k < K, totalMarketCap c p (t0 + k) ≠ 0) ∧
    (∀ T, (∃ u, u ≤ T ∧ reb u = true ∧ totalMarketCap c p u = 0) →
      ∃ d, stateBE c p reb T = Except.error d ∧ reb d = true ∧
        totalMarketCap c p d = 0) ∧
    (∀ T st, stateBE c p reb T = Except.ok st →
      ∀ u ≤ T, reb u = true → totalMarketCap c p u ≠ 0) := by
  refine ⟨?_, levelsAE_ok_spec c p t0 anchor, ?_, stateBE_ok_spec c p reb⟩
  · rintro K ⟨k, hk, hz⟩
    cases hE : levelsAE c p t0 anchor K with
    | error d => exact ⟨d, rfl, levelsAE_error_spec c p t0 anchor K d hE⟩
    | ok ls => exact absurd hz ((levelsAE_ok_spec c p t0 anchor K ls hE).2 k hk)
  · rintro T ⟨u, hu, hr, hz⟩
    cases hE : stateBE c p reb T with
    | error d =>
      obtain ⟨h1, h2⟩ := stateBE_error_spec c p reb T d hE
      exact ⟨d, rfl, h1, h2⟩
    | ok st => exact absurd hz (stateBE_ok_spec c p reb T st hE u hu hr)

/-- C5 witness: with an empty panel the total market cap on date 0 is
zero, so the Method A level computation over one step errors out and the
Method B simulation with a rebalance at date 0 errors out. -/
theorem zero_total_market_cap_fails_closed_witness :
    (∃ k, k < 1 ∧ totalMarketCap cEx ([] : List PanelRow) (0 + k) = 0) ∧
    (∃ d, levelsAE cEx ([] : List PanelRow) 0 100 1 = Except.error d ∧
      totalMarketCap cEx ([] : List PanelRow) d = 0) ∧
    (∃ d, stateBE cEx ([] : List PanelRow) (fun _ => true) 0 = Except.error d ∧
      (fun _ => true) d = true ∧ totalMarketCap cEx ([] : List PanelRow) d = 0) := by
  have h0 : totalMarketCap cEx ([] : List PanelRow) 0 = 0 := by
    simp [totalMarketCap, mcOrZero, findObs]
  refine ⟨⟨0, Nat.zero_lt_one, h0⟩, ?_, ?_⟩
  · exact (zero_total_market_cap_fails_closed cEx [] 0 100 (fun _ => true)).1 1
      ⟨0, Nat.zero_lt_one, h0⟩
  · exact (zero_total_market_cap_fails_closed cEx [] 0 100 (fun _ => true)).2.2.1 0
      ⟨0, Nat.le_refl 0, rfl, h0⟩

lemma find?_eq_of_perm_of_unique {α : Type _} (q : α → Bool) {l l' : List α}
    (h : l.Perm l')
    (huniq : ∀ a ∈ l, ∀ b ∈ l, q a = true → q b = true → a = b) :
    l.find? q = l'.find? q := by
  cases hfl : l.find? q with
  | none =>
    cases hfl' : l'.find? q with
    | none => rfl
    | some b =>
      have hqb := List.find?_some hfl'
      have hbmem := h.mem_iff.mpr (List.mem_of_find?_eq_some hfl')
      exact absurd hqb (List.find?_eq_none.mp hfl b hbmem)
  | some a =>
    have hqa := List.find?_some hfl
    have hamem := List.mem_of_find?_eq_some hfl
    cases hfl' : l'.find? q with
    | none => exact absurd hqa (List.find?_eq_none.mp hfl' a (h.mem_iff.mp hamem))
    | some b =>
      have hqb := List.find?_some hfl'
      have hbmem := h.mem_iff.mpr (List.mem_of_find?_eq_some hfl')
      rw [huniq a hamem b hbmem hqa hqb]

lemma findObs_eq_of_perm {p p' : List PanelRow} (hp : p.Perm p')
    (hkeys : (p.map fun r => (r.permno, r.date)).Nodup) (i d : ℕ) :
    findObs p' i d = findObs p i d := by
  unfold findObs
  refine (find?_eq_of_perm_of_unique _ hp ?_).symm
  intro a ha b hb hqa hqb
  simp only [Bool.and_eq_true, beq_iff_eq] at hqa hqb
  refine List.inj_on_of_nodup_map hkeys ha hb ?_
  rw [hqa.1, hqa.2, hqb.1, hqb.2]

lemma activeMembers_eq_of_perm {c c' : List MembershipInterval}
    (hc : c.Perm c') (d : ℕ) :
    activeMembers c' d = activeMembers c d := by
  unfold activeMembers
  exact (List.toFinset_eq_of_perm _ _ ((hc.filter _).map _)).symm

/-- C9: the engine's outputs are independent of the incidental row order
of the input tables: permuting the membership table and the panel (whose
(security, date) keys are unique) leaves the active-member sets, the
observation lookups, the total market caps, the Method B weight states
and return series, and the Method A level computation unchanged — hence
two runs over identical tables are identical. -/
theorem engine_row_order_independent (c c' : List MembershipInterval)
    (p p' : List PanelRow) (reb : ℕ → Bool) (t0 : ℕ) (anchor : ℚ)
    (hc : c.Perm c') (hp : p.Perm p')
    (hkeys : (p.map fun r => (r.permno, r.date)).Nodup) :
    (∀ d, activeMembers c' d = activeMembers c d) ∧
    (∀ i d, findObs p' i d = findObs p i d) ∧
    (∀ d, totalMarketCap c' p' d = totalMarketCap c p d) ∧
    (∀ t, stateB c' p' reb t = stateB c p reb t) ∧
    (∀ t, ret_approx_B c' p' reb t = ret_approx_B c p reb t) ∧
    (∀ K, levelsAE c' p' t0 anchor K = levelsAE c p t0 anchor K) := by
  have hA : ∀ d, activeMembers c' d = activeMembers c d :=
    fun d => activeMembers_eq_of_perm hc d
  have hF : ∀ i d, findObs p' i d = findObs p i d :=
    fun i d => findObs_eq_of_perm hp hkeys i d
  have hMc : ∀ i d, mcOrZero p' i d = mcOrZero p i d := fun i d => by
    unfold mcOrZero
    rw [hF]
  have hRx : ∀ i d, retxOrZero p' i d = retxOrZero p i d := fun i d => by
    unfold retxOrZero
    rw [hF]
  have hT : ∀ d, totalMarketCap c' p' d = totalMarketCap c p d := fun d => by
    unfold totalMarketCap
    rw [hA]
    exact Finset.sum_congr rfl fun i _ => hMc i d
  have hReb : ∀ t, rebalState c' p' t = rebalState c p t := fun t => by
    unfold rebalState
    rw [hA t]
    congr 1
    funext i
    rw [hMc, hT]
  have hSt : ∀ t, stateB c' p' reb t = stateB c p reb t := by
    intro t
    induction t with
    | zero => simp [stateB, hReb 0]
    | succ t ih => simp [stateB, hReb (t + 1), ih]
  have hRB : ∀ t, ret_approx_B c' p' reb t = ret_approx_B c p reb t := by
    intro t
    cases t with
    | zero => rfl
    | succ t =>
      show (∑ i ∈ (stateB c' p' reb t).support,
          (stateB c' p' reb t).w i * retxOrZero p' i (t + 1))
        = ∑ i ∈ (stateB c p reb t).support,
            (stateB c p reb t).w i * retxOrZero p i (t + 1)
      rw [hSt t]
      exact Finset.sum_congr rfl fun i _ => by rw [hRx]
  refine ⟨hA, hF, hT, hSt, hRB, ?_⟩
  intro K
  induction K with
  | zero => rfl
  | succ K ih => simp only [levelsAE, ih, hT]

/-- C9 witness: reversing both example tables leaves the total market
cap on date 1 unchanged. -/
theorem engine_row_order_independent_witness :
    cEx.Perm cEx.reverse ∧ pEx.Perm pEx.reverse ∧
    (pEx.map fun r => (r.permno, r.date)).Nodup ∧
    totalMarketCap cEx.reverse pEx.reverse 1 = totalMarketCap cEx pEx 1 :=
  ⟨(List.reverse_perm cEx).symm, (List.reverse_perm pEx).symm, by decide,
   (engine_row_order_independent cEx cEx.reverse pEx pEx.reverse
     (fun t => t == 0) 0 100 (List.reverse_perm cEx).symm
     (List.reverse_perm pEx).symm (by decide)).2.2.1 1⟩

end SP500
